import Mathlib

/-!
A shallow embedding of the `komplexity` tool (`src/main.rs`) together with a
verification of its specification: the streaming low-complexity interval
detector `lc2`, the interval merger `collapse_intervals`, the sequence masker
`mask_intervals` / `mask_sequence`, and the configuration validation performed
by `main`.

Modelling conventions:
* bytes and k-mer codes are natural numbers;
* the `f64` complexity ratio of line 215 is modelled by exact rational
  arithmetic; the IEEE corner case `0.0 / 0.0 = NaN` (whose comparison with
  every threshold is false) is modelled explicitly in `ratioLt`;
* operations that can panic in Rust (`unwrap` on `pop_front`, `unwrap` on the
  frequency-table lookup, out-of-range slicing) return `Option`, with `none`
  standing for a panic;
* the `FnvHashMap` frequency table is modelled as an association list whose
  operations mirror the `HashMap` calls made by the source.
-/

namespace Komplexity

/-- A half-open interval in sequence-byte coordinates; `struct Interval` of
main.rs.  The source field `end` is a Lean keyword and is rendered `end_`. -/
structure Interval where
  start : ℕ
  end_ : ℕ
  deriving DecidableEq, Repr

/-- `enum MaskType` of main.rs: mask with the sentinel byte `N` or with the
case-folded original symbol. -/
inductive MaskType where
  | N
  | LowerCase
  deriving DecidableEq

/-- main.rs lines 78-82: `if k > 12 { error_exit("-k must be less than or
equal to 12") }`.  The k-mer length passes configuration validation exactly
when this returns `true`; `false` means a fatal non-zero exit before any
record is processed. -/
def kValid (k : ℕ) : Bool :=
  if k > 12 then false else true

/-- main.rs lines 91-93: the threshold passes validation iff it lies in
`[0, 1]`. -/
def thresholdValid (t : ℚ) : Bool :=
  if t < 0 ∨ t > 1 then false else true

/-- Modelled from the spec: the external k-mer encoder (the `bio` crate's
`RankTransform::qgrams`, a dependency, not code of this repository).  The
spec's interface (sections 1 and 4.2): for a sequence of length `L` and k-mer
length `q` it produces one non-negative integer per position `0..L-q+1`,
equal codes exactly for equal k-mer texts, and a sequence shorter than `q`
produces an empty stream.  We realize the injective code as the base-256 fold
of the k-mer's bytes; no claim depends on the concrete code values, only on
which positions carry equal codes. -/
def kmerCode (kmer : List ℕ) : ℕ :=
  kmer.foldl (fun acc b => acc * 256 + b) 0

/-- The k-mer code stream of a byte sequence (see `kmerCode`). -/
def qgramCodes (q : ℕ) (text : List ℕ) : List ℕ :=
  if text.length < q then []
  else (List.range (text.length - q + 1)).map (fun i => kmerCode ((text.drop i).take q))

/-- `kmers.get(&key)` on the association-list model of the `FnvHashMap`. -/
def mapGet (m : List (ℕ × ℕ)) (key : ℕ) : Option ℕ :=
  match m with
  | [] => none
  | (a, v) :: rest => if a = key then some v else mapGet rest key

/-- `kmers.remove(&key)`. -/
def mapRemove (m : List (ℕ × ℕ)) (key : ℕ) : List (ℕ × ℕ) :=
  match m with
  | [] => []
  | (a, v) :: rest =>
      if a = key then mapRemove rest key else (a, v) :: mapRemove rest key

/-- `kmers.insert(key, v)` (replaces the entry if the key is present). -/
def mapInsert (m : List (ℕ × ℕ)) (key v : ℕ) : List (ℕ × ℕ) :=
  match m with
  | [] => [(key, v)]
  | (a, w) :: rest =>
      if a = key then (a, v) :: rest else (a, w) :: mapInsert rest key v

/-- `let n = kmers.entry(key).or_insert(0); *n += 1` (main.rs lines 209-210
and 233-234). -/
def bump (m : List (ℕ × ℕ)) (key : ℕ) : List (ℕ × ℕ) :=
  match m with
  | [] => [(key, 1)]
  | (a, v) :: rest =>
      if a = key then (a, v + 1) :: rest else (a, v) :: bump rest key

/-- main.rs lines 225-234: decrement the count of the evicted code `prev`
(removing the entry when the count was 1), then increment the count of the
admitted code `next`.  `none` models the panic of
`kmers.get(&prev).unwrap()` when `prev` is not a key. -/
def advanceCounts (kmers : List (ℕ × ℕ)) (prev next : ℕ) : Option (List (ℕ × ℕ)) :=
  match mapGet kmers prev with
  | none => none
  | some prevN =>
      let kmers' := if prevN = 1 then mapRemove kmers prev else mapInsert kmers prev (prevN - 1)
      some (bump kmers' next)

/-- main.rs lines 215-216: `kmers.len() as f64 / window.len() as f64 <
threshold`, with `f64` division idealized as exact rational division.  When
`den = 0` (possible only for an empty k-mer stream, where `num = 0` as well)
the Rust expression is `NaN < threshold`, which is false; this is the
`den = 0` branch.  For a positive denominator the comparison
`num / den < threshold` is implemented by the equivalent integer
cross-multiplication so that the definition evaluates by kernel reduction;
`ratioLt_eq_div` proves it equal to the rational-division comparison. -/
def ratioLt (num den : ℕ) (threshold : ℚ) : Bool :=
  if den = 0 then false
  else decide ((num : ℤ) * (threshold.den : ℤ) < threshold.num * (den : ℤ))

/-- For a positive denominator, `ratioLt` is exactly the rational comparison
`num / den < threshold`. -/
theorem ratioLt_eq_div (num den : ℕ) (t : ℚ) (hden : den ≠ 0) :
    (ratioLt num den t = true) ↔ ((num : ℚ) / (den : ℚ) < t) := by
  unfold ratioLt
  rw [if_neg hden, decide_eq_true_eq]
  have hden' : (0 : ℚ) < (den : ℚ) := by exact_mod_cast Nat.pos_of_ne_zero hden
  have htden : (0 : ℚ) < (t.den : ℚ) := by exact_mod_cast t.pos
  rw [div_lt_iff₀ hden']
  have hq : t * (t.den : ℚ) = (t.num : ℚ) := by
    calc t * (t.den : ℚ)
        = ((t.num : ℚ) / (t.den : ℚ)) * (t.den : ℚ) := by rw [Rat.num_div_den]
      _ = (t.num : ℚ) := div_mul_cancel₀ _ (ne_of_gt htden)
  have key : ((num : ℤ) * (t.den : ℤ) < t.num * (den : ℤ)) ↔
      ((num : ℚ) * (t.den : ℚ) < (t.num : ℚ) * (den : ℚ)) := by
    constructor
    · intro h
      exact_mod_cast h
    · intro h
      exact_mod_cast h
  have hiff : ((num : ℚ) * (t.den : ℚ) < (t.num : ℚ) * (den : ℚ)) ↔
      ((num : ℚ) < t * (den : ℚ)) := by
    rw [show (t.num : ℚ) * (den : ℚ) = t * (den : ℚ) * (t.den : ℚ) from by
      rw [mul_right_comm, hq]]
    exact mul_lt_mul_right htden
  rw [key, hiff]

/-- One observation point of the detector's sweep: the window, the frequency
table and the window index at one evaluation of line 215. -/
structure SweepStep where
  window : List ℕ
  kmers : List (ℕ × ℕ)
  idx : ℕ
  deriving DecidableEq, Repr

/-- The `loop` of main.rs lines 214-240, with the window deque as a list
(front at the head), together with the trace of states at each evaluation of
the complexity ratio.  `none` models a panic (`window.pop_front().unwrap()`
on an empty deque, or a failed frequency-table lookup).  The recursion over
the remaining iterator elements is expressed with `List.rec` so that the
definition evaluates efficiently by kernel reduction; `lc2Loop_nil` and
`lc2Loop_cons` below exhibit the two definitional equations of the loop
body. -/
def lc2Loop (q : ℕ) (threshold : ℚ) (rest : List ℕ) :
    List ℕ → List (ℕ × ℕ) → ℕ → Option (List Interval × List SweepStep) :=
  rest.rec
    (fun window kmers idx =>
      some ((if ratioLt kmers.length window.length threshold then
          [⟨idx, idx + (window.length - 1 + q)⟩] else []), [⟨window, kmers, idx⟩]))
    (fun kmer _rest ih window kmers idx =>
      match window with
      | [] => none
      | prev :: windowTail =>
        match advanceCounts kmers prev kmer with
        | none => none
        | some kmers' =>
          match ih (windowTail ++ [kmer]) kmers' (idx + 1) with
          | none => none
          | some (ivs, tr) =>
            some ((if ratioLt kmers.length (prev :: windowTail).length threshold then
                [⟨idx, idx + ((prev :: windowTail).length - 1 + q)⟩] else []) ++ ivs,
              ⟨prev :: windowTail, kmers, idx⟩ :: tr))

/-- main.rs lines 191-240 without the final `collapse_intervals` call: the
raw flagged intervals pushed by the sweep.  The initial window is filled with
the first `window_size` codes (lines 200-206) and the initial frequency table
counts them (lines 208-211). -/
def lc2Raw (text : List ℕ) (q : ℕ) (threshold : ℚ) (window_size : ℕ) : Option (List Interval) :=
  let codes := qgramCodes q text
  let window := codes.take window_size
  let kmers := window.foldl bump []
  (lc2Loop q threshold (codes.drop window_size) window kmers 0).map Prod.fst

/-- The trace of sweep states of `lc2` on the given input: one entry per
evaluation of the complexity ratio of line 215. -/
def lc2Steps (text : List ℕ) (q : ℕ) (threshold : ℚ) (window_size : ℕ) : Option (List SweepStep) :=
  let codes := qgramCodes q text
  let window := codes.take window_size
  let kmers := window.foldl bump []
  (lc2Loop q threshold (codes.drop window_size) window kmers 0).map Prod.snd

/-- The inner sweep of `collapse_intervals` (main.rs lines 247-256), with
`current` the running interval. -/
def collapseGo (current : Interval) : List Interval → List Interval
  | [] => [current]
  | interval :: rest =>
      if interval.start < current.end_ then collapseGo ⟨current.start, interval.end_⟩ rest
      else current :: collapseGo interval rest

/-- main.rs lines 244-259. -/
def collapse_intervals (intervals : List Interval) : List Interval :=
  match intervals with
  | [] => []
  | current :: rest => collapseGo current rest

/-- main.rs lines 191-242: the detector, returning the collapsed intervals. -/
def lc2 (text : List ℕ) (q : ℕ) (threshold : ℚ) (window_size : ℕ) : Option (List Interval) :=
  (lc2Raw text q threshold window_size).map collapse_intervals

/-- main.rs lines 286-312: the fixed symbol-to-symbol lower-casing table over
the IUPAC alphabet; any other byte is returned unchanged. -/
def lowercaseByte (b : ℕ) : ℕ :=
  match b with
  | 65 => 97    -- A
  | 67 => 99    -- C
  | 71 => 103   -- G
  | 84 => 116   -- T
  | 82 => 114   -- R
  | 89 => 121   -- Y
  | 83 => 115   -- S
  | 87 => 119   -- W
  | 75 => 107   -- K
  | 77 => 109   -- M
  | 66 => 98    -- B
  | 68 => 100   -- D
  | 72 => 104   -- H
  | 86 => 118   -- V
  | 78 => 110   -- N
  | 90 => 122   -- Z
  | b => b

/-- `fn lowercase` of main.rs. -/
def lowercase (seq : List ℕ) : List ℕ :=
  seq.map lowercaseByte

/-- A Rust slice `&seq[a..b]`; `none` models the panic when the range is out
of bounds (`a ≤ b ≤ seq.len()` is required). -/
def sliceRange (seq : List ℕ) (a b : ℕ) : Option (List ℕ) :=
  if a ≤ b ∧ b ≤ seq.length then some ((seq.drop a).take (b - a)) else none

/-- The loop of `mask_intervals` (main.rs lines 264-277), with `last` the
previously processed interval.  The `N` branch appends `end - start` sentinel
bytes without slicing `seq`; the lower-case branch slices
`&seq[interval.start..interval.end]`. -/
def maskGo (seq : List ℕ) (mask_type : MaskType) : List Interval → Interval → Option (List ℕ)
  | [], last => sliceRange seq last.end_ seq.length
  | interval :: rest, last =>
      match sliceRange seq last.end_ interval.start with
      | none => none
      | some intervening =>
          let masked : Option (List ℕ) :=
            match mask_type with
            | MaskType.LowerCase => (sliceRange seq interval.start interval.end_).map lowercase
            | MaskType.N => some (List.replicate (interval.end_ - interval.start) 78)
          match masked with
          | none => none
          | some ms =>
              match maskGo seq mask_type rest interval with
              | none => none
              | some tail => some (intervening ++ ms ++ tail)

/-- main.rs lines 261-279: rewrite `seq`, replacing the bytes covered by each
interval per the mask policy and copying all other bytes. -/
def mask_intervals (seq : List ℕ) (intervals : List Interval) (mask_type : MaskType) : Option (List ℕ) :=
  maskGo seq mask_type intervals ⟨0, 0⟩

/-- main.rs lines 179-183: detect and collapse the low-complexity intervals,
then mask them. -/
def mask_sequence (seq : List ℕ) (q : ℕ) (threshold : ℚ) (window_size : ℕ)
    (mask_type : MaskType) : Option (List ℕ) :=
  match lc2 seq q threshold window_size with
  | none => none
  | some intervals => mask_intervals seq intervals mask_type

/-! ### Specification-side definitions

These follow the wording of the spec (sections 4.2-4.4 and 8) and are compared
with the source-derived definitions above. -/

/-- The window of (up to) `W` consecutive k-mer codes starting at window
index `idx`. -/
def windowAt (codes : List ℕ) (W idx : ℕ) : List ℕ :=
  (codes.drop idx).take W

/-- The number of distinct codes in a window. -/
def distinctCount (l : List ℕ) : ℕ :=
  l.dedup.length

/-- Following the spec's words (section 4.2): at window index `idx`, if the
window is non-empty and `distinct_count / window_length < t`, emit the
interval `[idx, idx + (window_length - 1) + q)`. -/
def specEmit (codes : List ℕ) (q W : ℕ) (t : ℚ) (idx : ℕ) : Option Interval :=
  if 0 < (windowAt codes W idx).length ∧
      (distinctCount (windowAt codes W idx) : ℚ) / ((windowAt codes W idx).length : ℚ) < t then
    some ⟨idx, idx + ((windowAt codes W idx).length - 1 + q)⟩
  else none

/-- Following the spec's words: the ordered raw intervals of one detector
sweep, one candidate per window index. -/
def specRawIntervals (codes : List ℕ) (q W : ℕ) (t : ℚ) : List Interval :=
  (List.range (codes.length - min W codes.length + 1)).filterMap (specEmit codes q W t)

/-- Byte position `n` lies inside the half-open interval `iv`. -/
def insideIv (iv : Interval) (n : ℕ) : Prop :=
  iv.start ≤ n ∧ n < iv.end_

instance (iv : Interval) (n : ℕ) : Decidable (insideIv iv n) := by
  unfold insideIv; infer_instance

/-- Byte position `n` is covered by some interval of the list. -/
def covers (l : List Interval) (n : ℕ) : Prop :=
  ∃ iv ∈ l, insideIv iv n

instance (l : List Interval) (n : ℕ) : Decidable (covers l n) := by
  unfold covers; infer_instance

/-- The byte written by the mask policy over an original byte. -/
def maskByte : MaskType → ℕ → ℕ
  | MaskType.N, _ => 78
  | MaskType.LowerCase, b => lowercaseByte b

/-- The association list `m` is a faithful frequency table for the
multiplicity function `f`: its keys are pairwise distinct and its entries are
exactly the pairs `(a, f a)` with `f a` positive. -/
def TableRep (m : List (ℕ × ℕ)) (f : ℕ → ℕ) : Prop :=
  (m.map Prod.fst).Nodup ∧ ∀ a v, (a, v) ∈ m ↔ (0 < v ∧ f a = v)

/-- Concrete sequence of the spec's section 8 scenario: `"ACGT"` repeated
nine times (36 bytes). -/
def acgtUnit : List ℕ := [65, 67, 71, 84]

def acgt36 : List ℕ :=
  acgtUnit ++ acgtUnit ++ acgtUnit ++ acgtUnit ++ acgtUnit ++
  acgtUnit ++ acgtUnit ++ acgtUnit ++ acgtUnit

/-! ### Frequency-table lemmas -/

/-! ### Frequency-table lemmas -/

theorem mem_keys_iff {m : List (ℕ × ℕ)} {a : ℕ} :
    a ∈ m.map Prod.fst ↔ ∃ v, (a, v) ∈ m := by
  simp only [List.mem_map, Prod.exists]
  constructor
  · rintro ⟨b, v, hmem, rfl⟩
    exact ⟨v, hmem⟩
  · rintro ⟨v, hv⟩
    exact ⟨a, v, hv, rfl⟩

theorem mapGet_mem {m : List (ℕ × ℕ)} {a v : ℕ} (h : mapGet m a = some v) :
    (a, v) ∈ m := by
  induction m with
  | nil => simp [mapGet] at h
  | cons p rest ih =>
      obtain ⟨b, w⟩ := p
      by_cases hb : b = a
      · subst hb
        rw [show mapGet ((b, w) :: rest) b = some w from by simp [mapGet]] at h
        injection h with h2
        rw [← h2]
        exact List.mem_cons_self _ _
      · simp only [mapGet, if_neg hb] at h
        exact List.mem_cons_of_mem _ (ih h)

theorem mem_mapGet {m : List (ℕ × ℕ)} {a v : ℕ}
    (hnd : (m.map Prod.fst).Nodup) (h : (a, v) ∈ m) : mapGet m a = some v := by
  induction m with
  | nil => simp at h
  | cons p rest ih =>
      obtain ⟨b, w⟩ := p
      simp only [List.map_cons, List.nodup_cons] at hnd
      rcases List.mem_cons.mp h with h1 | h1
      · injection h1 with hb hw
        subst hb
        subst hw
        simp [mapGet]
      · have hb : b ≠ a := by
          intro hba
          exact hnd.1 (mem_keys_iff.mpr ⟨v, by rw [hba]; exact h1⟩)
        simpa [mapGet, hb] using ih hnd.2 h1

theorem mapGet_eq_none {m : List (ℕ × ℕ)} {a : ℕ}
    (h : ∀ v, (a, v) ∉ m) : mapGet m a = none := by
  induction m with
  | nil => rfl
  | cons p rest ih =>
      obtain ⟨b, w⟩ := p
      have hb : b ≠ a := by
        intro hba
        exact h w (by simp [hba])
      simp only [mapGet, if_neg hb]
      exact ih fun v hv => h v (List.mem_cons_of_mem _ hv)

theorem TableRep.get {m : List (ℕ × ℕ)} {f : ℕ → ℕ} (h : TableRep m f) (a : ℕ) :
    mapGet m a = if f a = 0 then none else some (f a) := by
  by_cases hfa : f a = 0
  · rw [if_pos hfa]
    apply mapGet_eq_none
    intro v hv
    have := (h.2 a v).mp hv
    omega
  · rw [if_neg hfa]
    exact mem_mapGet h.1 ((h.2 a (f a)).mpr ⟨Nat.pos_of_ne_zero hfa, rfl⟩)

theorem mem_mapRemove {m : List (ℕ × ℕ)} {key a v : ℕ} :
    (a, v) ∈ mapRemove m key ↔ ((a, v) ∈ m ∧ a ≠ key) := by
  induction m with
  | nil => simp [mapRemove]
  | cons p rest ih =>
      obtain ⟨b, w⟩ := p
      by_cases hb : b = key
      · subst hb
        rw [show mapRemove ((b, w) :: rest) b = mapRemove rest b from by simp [mapRemove]]
        rw [ih]
        simp only [List.mem_cons]
        constructor
        · rintro ⟨h1, h2⟩
          exact ⟨Or.inr h1, h2⟩
        · rintro ⟨h1 | h1, h2⟩
          · injection h1 with h3 h4
            exact absurd h3 h2
          · exact ⟨h1, h2⟩
      · rw [show mapRemove ((b, w) :: rest) key = (b, w) :: mapRemove rest key from by
            simp [mapRemove, hb]]
        simp only [List.mem_cons, ih]
        constructor
        · rintro (h1 | ⟨h1, h2⟩)
          · injection h1 with h3 h4
            subst h3
            subst h4
            exact ⟨Or.inl rfl, hb⟩
          · exact ⟨Or.inr h1, h2⟩
        · rintro ⟨h1 | h1, h2⟩
          · injection h1 with h3 h4
            subst h3
            subst h4
            exact Or.inl rfl
          · exact Or.inr ⟨h1, h2⟩

theorem keys_mapRemove_sublist (m : List (ℕ × ℕ)) (key : ℕ) :
    ((mapRemove m key).map Prod.fst).Sublist (m.map Prod.fst) := by
  induction m with
  | nil => simp [mapRemove]
  | cons p rest ih =>
      obtain ⟨b, w⟩ := p
      by_cases hb : b = key
      · simpa [mapRemove, hb] using ih.cons b
      · simpa [mapRemove, hb] using ih.cons₂ b

theorem TableRep.remove {m : List (ℕ × ℕ)} {f : ℕ → ℕ} (h : TableRep m f) (key : ℕ) :
    TableRep (mapRemove m key) (Function.update f key 0) := by
  refine ⟨h.1.sublist (keys_mapRemove_sublist m key), ?_⟩
  intro a v
  rw [mem_mapRemove, h.2 a v]
  by_cases ha : a = key
  · subst ha
    simp only [Function.update_same, ne_eq, not_true_eq_false, and_false, false_iff, not_and]
    omega
  · simp [Function.update_noteq ha, ha]

theorem keys_mapInsert (m : List (ℕ × ℕ)) (key w : ℕ) :
    (mapInsert m key w).map Prod.fst =
      if key ∈ m.map Prod.fst then m.map Prod.fst else m.map Prod.fst ++ [key] := by
  induction m with
  | nil => simp [mapInsert]
  | cons p rest ih =>
      obtain ⟨b, u⟩ := p
      by_cases hb : b = key
      · simp [mapInsert, hb]
      · have hkb : ¬key = b := fun hk => hb hk.symm
        by_cases hkey : key ∈ rest.map Prod.fst
        · simp [mapInsert, hb, ih, hkey, hkb]
        · simp [mapInsert, hb, ih, hkey, hkb]

theorem mem_mapInsert {m : List (ℕ × ℕ)} {key w a v : ℕ}
    (hnd : (m.map Prod.fst).Nodup) :
    (a, v) ∈ mapInsert m key w ↔ ((a = key ∧ v = w) ∨ ((a, v) ∈ m ∧ a ≠ key)) := by
  induction m with
  | nil =>
      rw [show mapInsert [] key w = [(key, w)] from rfl]
      simp [Prod.ext_iff]
  | cons p rest ih =>
      obtain ⟨b, u⟩ := p
      simp only [List.map_cons, List.nodup_cons] at hnd
      by_cases hb : b = key
      · subst hb
        rw [show mapInsert ((b, u) :: rest) b w = (b, w) :: rest from by simp [mapInsert]]
        simp only [List.mem_cons, Prod.mk.injEq]
        constructor
        · rintro (⟨rfl, rfl⟩ | h1)
          · exact Or.inl ⟨rfl, rfl⟩
          · have ha : a ≠ b := by
              intro hab
              exact hnd.1 (mem_keys_iff.mpr ⟨v, by rw [← hab]; exact h1⟩)
            exact Or.inr ⟨Or.inr h1, ha⟩
        · rintro (⟨rfl, rfl⟩ | ⟨h1 | h1, h2⟩)
          · exact Or.inl ⟨rfl, rfl⟩
          · exact absurd h1.1 h2
          · exact Or.inr h1
      · rw [show mapInsert ((b, u) :: rest) key w = (b, u) :: mapInsert rest key w from by
            simp [mapInsert, hb]]
        simp only [List.mem_cons, Prod.mk.injEq, ih hnd.2]
        constructor
        · rintro (⟨rfl, rfl⟩ | ⟨h1, h2⟩ | ⟨h1, h2⟩)
          · exact Or.inr ⟨Or.inl ⟨rfl, rfl⟩, hb⟩
          · exact Or.inl ⟨h1, h2⟩
          · exact Or.inr ⟨Or.inr h1, h2⟩
        · rintro (⟨h1, h2⟩ | ⟨h1 | h1, h2⟩)
          · exact Or.inr (Or.inl ⟨h1, h2⟩)
          · exact Or.inl h1
          · exact Or.inr (Or.inr ⟨h1, h2⟩)

theorem TableRep.insert {m : List (ℕ × ℕ)} {f : ℕ → ℕ} (h : TableRep m f)
    {key w : ℕ} (hw : 0 < w) :
    TableRep (mapInsert m key w) (Function.update f key w) := by
  constructor
  · rw [keys_mapInsert]
    by_cases hkey : key ∈ m.map Prod.fst
    · simpa [hkey] using h.1
    · rw [if_neg hkey, List.nodup_append]
      exact ⟨h.1, List.nodup_singleton key, by rw [List.disjoint_singleton]; exact hkey⟩
  · intro a v
    rw [mem_mapInsert h.1, h.2 a v]
    by_cases ha : a = key
    · subst ha
      simp only [Function.update_same, eq_self_iff_true, true_and, ne_eq, not_true_eq_false,
        and_false, or_false]
      omega
    · simp [Function.update_noteq ha, ha]

theorem bump_eq (m : List (ℕ × ℕ)) (key : ℕ) :
    bump m key =
      match mapGet m key with
      | none => m ++ [(key, 1)]
      | some v => mapInsert m key (v + 1) := by
  induction m with
  | nil => rfl
  | cons p rest ih =>
      obtain ⟨b, u⟩ := p
      by_cases hb : b = key
      · simp [bump, mapGet, mapInsert, hb]
      · simp only [bump, mapGet, mapInsert, if_neg hb, ih]
        cases mapGet rest key <;> rfl

theorem TableRep.bumpRep {m : List (ℕ × ℕ)} {f : ℕ → ℕ} (h : TableRep m f) (key : ℕ) :
    TableRep (bump m key) (Function.update f key (f key + 1)) := by
  have hget := h.get key
  rw [bump_eq]
  by_cases hf : f key = 0
  · rw [hget, if_pos hf]
    show TableRep (m ++ [(key, 1)]) _
    constructor
    · have hkey : key ∉ m.map Prod.fst := by
        rw [mem_keys_iff]
        rintro ⟨v, hv⟩
        have := (h.2 key v).mp hv
        omega
      simp only [List.map_append, List.map_cons, List.map_nil]
      rw [List.nodup_append]
      exact ⟨h.1, List.nodup_singleton key, by rw [List.disjoint_singleton]; exact hkey⟩
    · intro a v
      rw [List.mem_append, h.2 a v, List.mem_singleton]
      by_cases ha : a = key
      · subst ha
        rw [Function.update_same]
        constructor
        · rintro (⟨h1, h2⟩ | h1)
          · omega
          · injection h1 with h3 h4
            omega
        · rintro ⟨h1, h2⟩
          right
          have hv : v = 1 := by omega
          rw [hv]
      · rw [Function.update_noteq ha]
        constructor
        · rintro (⟨h1, h2⟩ | h1)
          · exact ⟨h1, h2⟩
          · injection h1 with h3 h4
            exact absurd h3 ha
        · rintro ⟨h1, h2⟩
          exact Or.inl ⟨h1, h2⟩
  · rw [hget, if_neg hf]
    show TableRep (mapInsert m key (f key + 1)) _
    exact h.insert (by omega)

theorem TableRep.advance {m : List (ℕ × ℕ)} {f : ℕ → ℕ} {prev : ℕ}
    (h : TableRep m f) (hp : 0 < f prev) (next : ℕ) :
    ∃ m', advanceCounts m prev next = some m' ∧
      TableRep m'
        (Function.update (Function.update f prev (f prev - 1)) next
          (Function.update f prev (f prev - 1) next + 1)) := by
  have hget : mapGet m prev = some (f prev) := by
    rw [h.get prev, if_neg (by omega)]
  by_cases h1 : f prev = 1
  · refine ⟨bump (mapRemove m prev) next, ?_, ?_⟩
    · simp [advanceCounts, hget, h1]
    · have := (h.remove prev).bumpRep next
      simpa [h1] using this
  · refine ⟨bump (mapInsert m prev (f prev - 1)) next, ?_, ?_⟩
    · simp [advanceCounts, hget, h1]
    · exact (h.insert (by omega)).bumpRep next

theorem tableRep_nil : TableRep [] (fun _ => 0) := by
  refine ⟨by simp, ?_⟩
  intro a v
  simp only [List.not_mem_nil, false_iff, not_and]
  omega

theorem TableRep.fill :
    ∀ (w : List ℕ) (m : List (ℕ × ℕ)) (f : ℕ → ℕ), TableRep m f →
      TableRep (w.foldl bump m) (fun a => f a + w.count a) := by
  intro w
  induction w with
  | nil =>
      intro m f h
      simpa using h
  | cons x w ih =>
      intro m f h
      have step := h.bumpRep x
      have hres := ih (bump m x) _ step
      have harith :
          (fun a => Function.update f x (f x + 1) a + w.count a) =
            fun a => f a + (x :: w).count a := by
        funext a
        by_cases ha : a = x
        · subst ha
          rw [Function.update_same, List.count_cons_self]
          omega
        · rw [Function.update_noteq ha, List.count_cons_of_ne ha]
      rw [List.foldl_cons]
      rw [harith] at hres
      exact hres

theorem tableRep_count (w : List ℕ) :
    TableRep (w.foldl bump []) (fun a => w.count a) := by
  have := TableRep.fill w [] (fun _ => 0) tableRep_nil
  simpa using this

/-! ### The table of a concrete window -/

theorem tableRep_keys_perm {m : List (ℕ × ℕ)} {w : List ℕ}
    (h : TableRep m (fun a => w.count a)) :
    (m.map Prod.fst).Perm w.dedup := by
  rw [List.perm_ext_iff_of_nodup h.1 (List.nodup_dedup w)]
  intro a
  rw [mem_keys_iff, List.mem_dedup]
  constructor
  · rintro ⟨v, hv⟩
    obtain ⟨h1, h2⟩ := (h.2 a v).mp hv
    have h2' : w.count a = v := h2
    exact List.count_pos_iff.mp (by omega)
  · intro ha
    exact ⟨w.count a, (h.2 a _).mpr ⟨List.count_pos_iff.mpr ha, rfl⟩⟩

theorem tableRep_length {m : List (ℕ × ℕ)} {w : List ℕ}
    (h : TableRep m (fun a => w.count a)) :
    m.length = distinctCount w := by
  have hp := (tableRep_keys_perm h).length_eq
  simpa [distinctCount] using hp

theorem tableRep_sum {m : List (ℕ × ℕ)} {w : List ℕ}
    (h : TableRep m (fun a => w.count a)) :
    (m.map Prod.snd).sum = w.length := by
  have hmap : m.map Prod.snd = (m.map Prod.fst).map (fun a => w.count a) := by
    rw [List.map_map]
    apply List.map_congr_left
    intro p hp
    exact ((h.2 p.1 p.2).mp hp).2.symm
  calc (m.map Prod.snd).sum
      = ((m.map Prod.fst).map (fun a => w.count a)).sum := by rw [hmap]
    _ = (w.dedup.map (fun a => w.count a)).sum := ((tableRep_keys_perm h).map _).sum_eq
    _ = w.length := List.sum_map_count_dedup_eq_length w

/-- Evicting the front element and admitting a new one turns the multiplicity
function of `prev :: wt` into the multiplicity function of `wt ++ [next]`. -/
theorem count_advance_eq (prev next : ℕ) (wt : List ℕ) :
    (Function.update (Function.update (fun a => (prev :: wt).count a) prev
        ((prev :: wt).count prev - 1)) next
      (Function.update (fun a => (prev :: wt).count a) prev
        ((prev :: wt).count prev - 1) next + 1)) =
    fun a => (wt ++ [next]).count a := by
  funext a
  by_cases han : a = next
  · subst han
    rw [Function.update_same]
    by_cases hap : a = prev
    · subst hap
      simp only [Function.update_same, List.count_cons_self, List.count_append,
        List.count_singleton_self, List.count_nil]
      omega
    · rw [Function.update_noteq hap, List.count_cons_of_ne hap]
      simp only [List.count_append, List.count_singleton_self]
  · rw [Function.update_noteq han]
    by_cases hap : a = prev
    · subst hap
      rw [Function.update_same, List.count_cons_self]
      simp only [List.count_append, List.count_singleton, beq_iff_eq]
      rw [if_neg (fun hna => han hna.symm)]
      omega
    · rw [Function.update_noteq hap, List.count_cons_of_ne hap]
      simp only [List.count_append, List.count_singleton, beq_iff_eq]
      rw [if_neg (fun hna => han hna.symm)]
      omega

/-! ### The detector loop satisfies the emission rule of the spec -/

/-- The spec-side emission condition coincides with the source-side `ratioLt`
comparison. -/
theorem specEmit_eq_ratioLt (codes : List ℕ) (q W : ℕ) (t : ℚ) (idx : ℕ) :
    specEmit codes q W t idx =
      (if ratioLt (distinctCount (windowAt codes W idx)) (windowAt codes W idx).length t then
        some ⟨idx, idx + ((windowAt codes W idx).length - 1 + q)⟩ else none) := by
  unfold specEmit
  by_cases h0 : (windowAt codes W idx).length = 0
  · rw [if_neg (fun hc => absurd hc.1 (by omega)),
      show ratioLt (distinctCount (windowAt codes W idx)) (windowAt codes W idx).length t =
          false from by unfold ratioLt; rw [if_pos h0]]
    rfl
  · by_cases hlt : (distinctCount (windowAt codes W idx) : ℚ) /
        ((windowAt codes W idx).length : ℚ) < t
    · rw [if_pos ⟨Nat.pos_of_ne_zero h0, hlt⟩,
        if_pos ((ratioLt_eq_div _ _ t h0).mpr hlt)]
    · rw [if_neg (fun hc => hlt hc.2),
        if_neg (fun hb => hlt ((ratioLt_eq_div _ _ t h0).mp hb))]

theorem lc2Loop_nil (q : ℕ) (t : ℚ) (window : List ℕ) (kmers : List (ℕ × ℕ)) (idx : ℕ) :
    lc2Loop q t [] window kmers idx =
      some ((if ratioLt kmers.length window.length t then
          [⟨idx, idx + (window.length - 1 + q)⟩] else []), [⟨window, kmers, idx⟩]) := by
  rfl

theorem lc2Loop_cons (q : ℕ) (t : ℚ) (kmer : ℕ) (rest window : List ℕ) (prev : ℕ)
    (kmers : List (ℕ × ℕ)) (idx : ℕ) :
    lc2Loop q t (kmer :: rest) (prev :: window) kmers idx =
      match advanceCounts kmers prev kmer with
      | none => none
      | some kmers' =>
        match lc2Loop q t rest (window ++ [kmer]) kmers' (idx + 1) with
        | none => none
        | some (ivs, tr) =>
          some ((if ratioLt kmers.length (prev :: window).length t then
              [⟨idx, idx + ((prev :: window).length - 1 + q)⟩] else []) ++ ivs,
            ⟨prev :: window, kmers, idx⟩ :: tr) := by
  rfl

/-- Main loop invariant: started at window index `idx` with the window
`windowAt codes W idx`, a faithful frequency table, and the not-yet-consumed
codes `codes.drop (idx + W)`, the loop succeeds and produces exactly the
spec's emissions for the window indices `idx, idx+1, ...`; moreover every
recorded sweep state carries a faithful frequency table. -/
theorem lc2Loop_spec (q : ℕ) (t : ℚ) (codes : List ℕ) (W : ℕ) (hW : 1 ≤ W) :
    ∀ (rest : List ℕ) (idx : ℕ) (kmers : List (ℕ × ℕ)),
      rest = codes.drop (idx + W) →
      windowAt codes W idx ≠ [] →
      TableRep kmers (fun a => (windowAt codes W idx).count a) →
      ∃ tr, lc2Loop q t rest (windowAt codes W idx) kmers idx =
          some ((List.range' idx (rest.length + 1)).filterMap (specEmit codes q W t), tr) ∧
        ∀ s ∈ tr, TableRep s.kmers (fun a => s.window.count a) := by
  obtain ⟨W', rfl⟩ : ∃ W', W = W' + 1 := ⟨W - 1, by omega⟩
  intro rest
  induction rest with
  | nil =>
      intro idx kmers hrest hne hrep
      refine ⟨[⟨windowAt codes (W' + 1) idx, kmers, idx⟩], ?_, ?_⟩
      · rw [lc2Loop_nil, tableRep_length hrep]
        simp only [List.length_nil, Nat.zero_add, List.range'_one, List.filterMap_cons,
          List.filterMap_nil, specEmit_eq_ratioLt]
        cases hR : ratioLt (distinctCount (windowAt codes (W' + 1) idx))
            (windowAt codes (W' + 1) idx).length t
        · simp
        · simp
      · intro s hs
        rw [List.mem_singleton] at hs
        subst hs
        exact hrep
  | cons kmer rest ih =>
      intro idx kmers hrest hne hrep
      have hlen : idx + (W' + 1) < codes.length := by
        rcases Nat.lt_or_ge (idx + (W' + 1)) codes.length with h | h
        · exact h
        · rw [List.drop_eq_nil_iff.mpr h] at hrest
          exact absurd hrest (List.cons_ne_nil _ _)
      have hidx : idx < codes.length := by omega
      have hwin : windowAt codes (W' + 1) idx =
          codes[idx] :: (codes.drop (idx + 1)).take W' := by
        unfold windowAt
        rw [List.drop_eq_getElem_cons hidx, List.take_succ_cons]
      have hdropc : codes.drop (idx + (W' + 1)) =
          codes[idx + (W' + 1)] :: codes.drop (idx + (W' + 1) + 1) :=
        List.drop_eq_getElem_cons hlen
      rw [hdropc] at hrest
      injection hrest with hk hr
      have hwin' : windowAt codes (W' + 1) (idx + 1) =
          (codes.drop (idx + 1)).take W' ++ [kmer] := by
        unfold windowAt
        rw [List.take_succ, List.getElem?_drop,
          show idx + 1 + W' = idx + (W' + 1) from by omega,
          List.getElem?_eq_getElem hlen, hk]
        rfl
      -- the evicted code is present in the window
      rw [hwin] at hrep
      have hp : 0 < (codes[idx] :: (codes.drop (idx + 1)).take W').count codes[idx] := by
        rw [List.count_cons_self]
        omega
      obtain ⟨kmers', hadv, hrep2⟩ := hrep.advance hp kmer
      rw [count_advance_eq] at hrep2
      rw [← hwin'] at hrep2
      have hne' : windowAt codes (W' + 1) (idx + 1) ≠ [] := by
        rw [hwin']
        exact (List.append_ne_nil_of_right_ne_nil _ (List.cons_ne_nil _ _))
      have hr' : rest = codes.drop (idx + 1 + (W' + 1)) := by
        rw [hr]
        congr 1
        omega
      obtain ⟨tr', heq', htr'⟩ := ih (idx + 1) kmers' hr' hne' hrep2
      rw [hwin'] at heq'
      refine ⟨⟨codes[idx] :: (codes.drop (idx + 1)).take W', kmers, idx⟩ :: tr', ?_, ?_⟩
      · rw [hwin, lc2Loop_cons, hadv]
        dsimp only
        rw [heq']
        dsimp only
        have hsplit : List.range' idx ((kmer :: rest).length + 1) =
            idx :: List.range' (idx + 1) (rest.length + 1) := by
          rw [show (kmer :: rest).length + 1 = (rest.length + 1) + 1 from by simp,
            List.range'_succ]
        rw [hsplit, List.filterMap_cons]
        rw [specEmit_eq_ratioLt codes q (W' + 1) t idx]
        rw [hwin, ← tableRep_length hrep]
        cases hR : ratioLt kmers.length
            (codes[idx] :: (codes.drop (idx + 1)).take W').length t
        · simp
        · simp
      · intro s hs
        rcases List.mem_cons.mp hs with h1 | h1
        · subst h1
          exact hrep
        · exact htr' s h1

/-- The initial fill followed by the loop: the detector's pre-collapse run on
an arbitrary code stream equals the spec's emission list, with a faithful
frequency table at every recorded sweep state. -/
theorem lc2Loop_start (codes : List ℕ) (q : ℕ) (t : ℚ) (W : ℕ) (hW : 1 ≤ W) :
    ∃ tr, lc2Loop q t (codes.drop W) (codes.take W) ((codes.take W).foldl bump []) 0 =
        some (specRawIntervals codes q W t, tr) ∧
      ∀ s ∈ tr, TableRep s.kmers (fun a => s.window.count a) := by
  by_cases hc : codes = []
  · subst hc
    refine ⟨[⟨[], [], 0⟩], ?_, ?_⟩
    · simp only [List.drop_nil, List.take_nil, List.foldl_nil]
      rw [lc2Loop_nil]
      simp [ratioLt, specRawIntervals, specEmit, windowAt]
    · intro s hs
      rw [List.mem_singleton] at hs
      subst hs
      exact tableRep_count []
  · have h0 : windowAt codes W 0 = codes.take W := by
      unfold windowAt
      rw [List.drop_zero]
    have hne : windowAt codes W 0 ≠ [] := by
      rw [h0]
      intro hcon
      rw [List.take_eq_nil_iff] at hcon
      rcases hcon with h | h
      all_goals first
        | exact hc h
        | omega
    obtain ⟨tr, heq, htr⟩ := lc2Loop_spec q t codes W hW (codes.drop W) 0
      ((codes.take W).foldl bump []) (by rw [Nat.zero_add]) hne
      (by rw [h0]; exact tableRep_count (codes.take W))
    rw [h0] at heq
    refine ⟨tr, ?_, htr⟩
    rw [heq]
    have hr : List.range' 0 ((codes.drop W).length + 1) =
        List.range (codes.length - min W codes.length + 1) := by
      rw [← List.range_eq_range']
      congr 1
      rw [List.length_drop]
      omega
    rw [hr]
    rfl

/-- `lc2Raw` computes exactly the spec's raw interval list (for a window
capacity of at least one). -/
theorem lc2Raw_eq_spec (text : List ℕ) (q : ℕ) (t : ℚ) (W : ℕ) (hW : 1 ≤ W) :
    lc2Raw text q t W = some (specRawIntervals (qgramCodes q text) q W t) := by
  obtain ⟨tr, heq, -⟩ := lc2Loop_start (qgramCodes q text) q t W hW
  show (lc2Loop q t ((qgramCodes q text).drop W) ((qgramCodes q text).take W)
      (((qgramCodes q text).take W).foldl bump []) 0).map Prod.fst = _
  rw [heq]
  rfl

/-- Every recorded sweep state of the detector carries a faithful frequency
table. -/
theorem lc2Steps_rep (text : List ℕ) (q : ℕ) (t : ℚ) (W : ℕ) (hW : 1 ≤ W) :
    ∃ tr, lc2Steps text q t W = some tr ∧
      ∀ s ∈ tr, TableRep s.kmers (fun a => s.window.count a) := by
  obtain ⟨tr, heq, htr⟩ := lc2Loop_start (qgramCodes q text) q t W hW
  refine ⟨tr, ?_, htr⟩
  show (lc2Loop q t ((qgramCodes q text).drop W) ((qgramCodes q text).take W)
      (((qgramCodes q text).take W).foldl bump []) 0).map Prod.snd = _
  rw [heq]
  rfl

/-! ### Shape of the raw interval list -/

theorem specEmit_eq_some_iff {codes : List ℕ} {q W : ℕ} {t : ℚ} {idx : ℕ} {iv : Interval} :
    specEmit codes q W t idx = some iv ↔
      (0 < (windowAt codes W idx).length ∧
        (distinctCount (windowAt codes W idx) : ℚ) / ((windowAt codes W idx).length : ℚ) < t) ∧
      iv = ⟨idx, idx + ((windowAt codes W idx).length - 1 + q)⟩ := by
  unfold specEmit
  split
  · rename_i hcond
    simp only [Option.some.injEq]
    constructor
    · intro h
      exact ⟨hcond, h.symm⟩
    · rintro ⟨-, h⟩
      exact h.symm
  · rename_i hcond
    constructor
    · intro h
      exact absurd h (by simp)
    · rintro ⟨h1, -⟩
      exact absurd h1 hcond

theorem windowAt_length (codes : List ℕ) (W idx : ℕ) :
    (windowAt codes W idx).length = min W (codes.length - idx) := by
  unfold windowAt
  rw [List.length_take, List.length_drop]

theorem specRaw_mem {codes : List ℕ} {q W : ℕ} {t : ℚ} {iv : Interval}
    (h : iv ∈ specRawIntervals codes q W t) :
    ∃ idx, idx ≤ codes.length - min W codes.length ∧ 0 < min W codes.length ∧
      iv = ⟨idx, idx + (min W codes.length - 1 + q)⟩ := by
  unfold specRawIntervals at h
  rw [List.mem_filterMap] at h
  obtain ⟨idx, hidx, hemit⟩ := h
  rw [List.mem_range] at hidx
  have hidx' : idx ≤ codes.length - min W codes.length := by omega
  rw [specEmit_eq_some_iff] at hemit
  obtain ⟨⟨hpos, -⟩, hiv⟩ := hemit
  rw [windowAt_length] at hpos hiv
  have hww : min W (codes.length - idx) = min W codes.length := by omega
  rw [hww] at hpos hiv
  exact ⟨idx, hidx', hpos, hiv⟩

theorem specRaw_pairwise (codes : List ℕ) (q W : ℕ) (t : ℚ) :
    (specRawIntervals codes q W t).Pairwise
      (fun a b => a.start < b.start ∧ a.end_ ≤ b.end_) := by
  unfold specRawIntervals
  rw [List.pairwise_filterMap]
  refine (List.pairwise_lt_range _).imp ?_
  intro i j hij a ha b hb
  rw [Option.mem_def, specEmit_eq_some_iff] at ha hb
  obtain ⟨⟨hpa, -⟩, rfl⟩ := ha
  obtain ⟨⟨hpb, -⟩, rfl⟩ := hb
  constructor
  · show i < j
    exact hij
  · show i + ((windowAt codes W i).length - 1 + q) ≤ j + ((windowAt codes W j).length - 1 + q)
    simp only [windowAt_length] at hpa hpb ⊢
    omega

/-! ### The interval merger -/

theorem collapseGo_cons (current interval : Interval) (rest : List Interval) :
    collapseGo current (interval :: rest) =
      if interval.start < current.end_ then collapseGo ⟨current.start, interval.end_⟩ rest
      else current :: collapseGo interval rest := rfl

theorem covers_nil {n : ℕ} : ¬ covers [] n := by
  rintro ⟨iv, hiv, -⟩
  simp at hiv

theorem covers_cons {iv : Interval} {l : List Interval} {n : ℕ} :
    covers (iv :: l) n ↔ (insideIv iv n ∨ covers l n) := by
  unfold covers
  rw [List.exists_mem_cons_iff]

/-- The single sweep of the merger: on a start- and end-monotone input it
keeps the first start, separates consecutive outputs strictly, and covers
exactly the input's byte positions. -/
theorem collapseGo_spec :
    ∀ (rest : List Interval) (current : Interval),
      List.Chain' (fun a b => a.start ≤ b.start ∧ a.end_ ≤ b.end_) (current :: rest) →
      (∃ e tail, collapseGo current rest = ⟨current.start, e⟩ :: tail) ∧
      List.Chain' (fun a b => a.end_ ≤ b.start) (collapseGo current rest) ∧
      (∀ n, covers (collapseGo current rest) n ↔ (insideIv current n ∨ covers rest n)) := by
  intro rest
  induction rest with
  | nil =>
      intro current hchain
      refine ⟨⟨current.end_, [], rfl⟩, List.chain'_singleton _, ?_⟩
      intro n
      rw [show collapseGo current [] = [current] from rfl, covers_cons]
  | cons interval rest ih =>
      intro current hchain
      rw [List.chain'_cons] at hchain
      obtain ⟨hci, hchain'⟩ := hchain
      by_cases habs : interval.start < current.end_
      · rw [collapseGo_cons, if_pos habs]
        have hchain2 : List.Chain'
            (fun a b => a.start ≤ b.start ∧ a.end_ ≤ b.end_)
            (⟨current.start, interval.end_⟩ :: rest) := by
          cases rest with
          | nil => exact List.chain'_singleton _
          | cons r rest' =>
              rw [List.chain'_cons] at hchain' ⊢
              obtain ⟨hir, h3⟩ := hchain'
              exact ⟨⟨le_trans hci.1 hir.1, hir.2⟩, h3⟩
        obtain ⟨⟨e, tail, hhead⟩, hsep, hcov⟩ := ih ⟨current.start, interval.end_⟩ hchain2
        refine ⟨⟨e, tail, hhead⟩, hsep, ?_⟩
        intro n
        rw [hcov n, covers_cons]
        obtain ⟨hci1, hci2⟩ := hci
        unfold insideIv
        dsimp only
        constructor
        · rintro (⟨h1, h2⟩ | h3)
          · by_cases hn : n < current.end_
            · exact Or.inl ⟨h1, hn⟩
            · exact Or.inr (Or.inl ⟨by omega, h2⟩)
          · exact Or.inr (Or.inr h3)
        · rintro (⟨h1, h2⟩ | ⟨h1, h2⟩ | h3)
          · exact Or.inl ⟨h1, by omega⟩
          · exact Or.inl ⟨by omega, h2⟩
          · exact Or.inr h3
      · rw [collapseGo_cons, if_neg habs]
        obtain ⟨⟨e, tail, hhead⟩, hsep, hcov⟩ := ih interval hchain'
        refine ⟨⟨current.end_, collapseGo interval rest, rfl⟩, ?_, ?_⟩
        · rw [hhead, List.chain'_cons]
          refine ⟨?_, ?_⟩
          · show current.end_ ≤ interval.start
            omega
          · rw [hhead] at hsep
            exact hsep
        · intro n
          rw [covers_cons, hcov n, covers_cons]

/-- The merger maps well-formed monotone inputs to well-formed outputs whose
ends are ends of input intervals. -/
theorem collapseGo_wf :
    ∀ (rest : List Interval) (current : Interval),
      (∀ iv ∈ current :: rest, iv.start ≤ iv.end_) →
      List.Chain' (fun a b => a.start ≤ b.start ∧ a.end_ ≤ b.end_) (current :: rest) →
      ∀ o ∈ collapseGo current rest,
        o.start ≤ o.end_ ∧ ∃ b ∈ current :: rest, o.end_ = b.end_ := by
  intro rest
  induction rest with
  | nil =>
      intro current hwf hchain o ho
      rw [show collapseGo current [] = [current] from rfl, List.mem_singleton] at ho
      subst ho
      exact ⟨hwf o (List.mem_cons_self _ _), o, List.mem_cons_self _ _, rfl⟩
  | cons interval rest ih =>
      intro current hwf hchain o ho
      rw [List.chain'_cons] at hchain
      obtain ⟨hci, hchain'⟩ := hchain
      rw [collapseGo_cons] at ho
      by_cases habs : interval.start < current.end_
      · rw [if_pos habs] at ho
        have hwf2 : ∀ iv ∈ (⟨current.start, interval.end_⟩ : Interval) :: rest,
            iv.start ≤ iv.end_ := by
          intro iv hiv
          rcases List.mem_cons.mp hiv with h | h
          · subst h
            show current.start ≤ interval.end_
            have h1 := hwf interval (List.mem_cons_of_mem _ (List.mem_cons_self _ _))
            have h2 := hci.1
            omega
          · exact hwf iv (List.mem_cons_of_mem _ (List.mem_cons_of_mem _ h))
        have hchain2 : List.Chain' (fun a b => a.start ≤ b.start ∧ a.end_ ≤ b.end_)
            ((⟨current.start, interval.end_⟩ : Interval) :: rest) := by
          cases rest with
          | nil => exact List.chain'_singleton _
          | cons r rest' =>
              rw [List.chain'_cons] at hchain' ⊢
              obtain ⟨hir, h3⟩ := hchain'
              exact ⟨⟨le_trans hci.1 hir.1, hir.2⟩, h3⟩
        obtain ⟨h1, b, hb, hbe⟩ := ih ⟨current.start, interval.end_⟩ hwf2 hchain2 o ho
        refine ⟨h1, ?_⟩
        rcases List.mem_cons.mp hb with h | h
        · subst h
          exact ⟨interval, List.mem_cons_of_mem _ (List.mem_cons_self _ _), hbe⟩
        · exact ⟨b, List.mem_cons_of_mem _ (List.mem_cons_of_mem _ h), hbe⟩
      · rw [if_neg habs] at ho
        rcases List.mem_cons.mp ho with h | h
        · subst h
          exact ⟨hwf o (List.mem_cons_self _ _), o, List.mem_cons_self _ _, rfl⟩
        · obtain ⟨h1, b, hb, hbe⟩ := ih interval
            (fun iv hiv => hwf iv (List.mem_cons_of_mem _ hiv)) hchain' o h
          exact ⟨h1, b, List.mem_cons_of_mem _ hb, hbe⟩

/-- Positions covered by the tail of a separated chain lie at or beyond the
head's end. -/
theorem covers_tail_lb {iv : Interval} {rest : List Interval} {n : ℕ}
    (hchain : List.Chain' (fun a b => a.end_ ≤ b.start) (iv :: rest))
    (hwf : ∀ r ∈ rest, r.start ≤ r.end_)
    (hcov : covers rest n) : iv.end_ ≤ n := by
  induction rest generalizing iv with
  | nil => exact absurd hcov covers_nil
  | cons r rest ih =>
      rw [List.chain'_cons] at hchain
      rw [covers_cons] at hcov
      rcases hcov with h | h
      · obtain ⟨h1, h2⟩ := h
        have h3 := hchain.1
        omega
      · have hr := ih hchain.2 (fun x hx => hwf x (List.mem_cons_of_mem _ hx)) h
        have h2 := hwf r (List.mem_cons_self _ _)
        have h3 := hchain.1
        omega

/-! ### The sequence masker -/

theorem maskGo_nil (seq : List ℕ) (mt : MaskType) (last : Interval) :
    maskGo seq mt [] last = sliceRange seq last.end_ seq.length := rfl

theorem maskGo_cons (seq : List ℕ) (mt : MaskType) (interval : Interval)
    (rest : List Interval) (last : Interval) :
    maskGo seq mt (interval :: rest) last =
      match sliceRange seq last.end_ interval.start with
      | none => none
      | some intervening =>
          match (match mt with
                 | MaskType.LowerCase => (sliceRange seq interval.start interval.end_).map lowercase
                 | MaskType.N => some (List.replicate (interval.end_ - interval.start) 78)) with
          | none => none
          | some ms =>
              match maskGo seq mt rest interval with
              | none => none
              | some tail => some (intervening ++ ms ++ tail) := rfl

/-- Correctness of the masker sweep: under separation and in-bounds
hypotheses it succeeds, preserves the residual length, masks exactly the
covered positions and copies the rest. -/
theorem maskGo_spec (seq : List ℕ) (mt : MaskType) :
    ∀ (ivs : List Interval) (last : Interval),
      List.Chain' (fun a b => a.end_ ≤ b.start) ivs →
      (∀ iv ∈ ivs, iv.start ≤ iv.end_ ∧ iv.end_ ≤ seq.length) →
      last.end_ ≤ seq.length →
      (∀ iv ∈ ivs.head?, last.end_ ≤ iv.start) →
      ∃ out, maskGo seq mt ivs last = some out ∧
        out.length = seq.length - last.end_ ∧
        ∀ i, last.end_ ≤ i → i < seq.length →
          ((covers ivs i → out[i - last.end_]? = (seq[i]?).map (maskByte mt)) ∧
           (¬ covers ivs i → out[i - last.end_]? = seq[i]?)) := by
  intro ivs
  induction ivs with
  | nil =>
      intro last hchain hwf hlast hhead
      refine ⟨seq.drop last.end_, ?_, ?_, ?_⟩
      · rw [maskGo_nil]
        unfold sliceRange
        rw [if_pos ⟨hlast, le_refl _⟩]
        congr 1
        rw [← List.length_drop]
        exact List.take_length _
      · rw [List.length_drop]
      · intro i hi1 hi2
        constructor
        · intro hcov
          exact absurd hcov covers_nil
        · intro hncov
          rw [List.getElem?_drop]
          congr 1
          omega
  | cons interval rest ih =>
      intro last hchain hwf hlast hhead
      have hp1 : last.end_ ≤ interval.start := hhead interval rfl
      have hwfi := hwf interval (List.mem_cons_self _ _)
      have his : interval.start ≤ interval.end_ := hwfi.1
      have hie : interval.end_ ≤ seq.length := hwfi.2
      have hwfrest : ∀ iv ∈ rest, iv.start ≤ iv.end_ ∧ iv.end_ ≤ seq.length :=
        fun iv hiv => hwf iv (List.mem_cons_of_mem _ hiv)
      have hinter : sliceRange seq last.end_ interval.start =
          some ((seq.drop last.end_).take (interval.start - last.end_)) := by
        unfold sliceRange
        rw [if_pos ⟨hp1, by omega⟩]
      have hinterlen : ((seq.drop last.end_).take (interval.start - last.end_)).length =
          interval.start - last.end_ := by
        rw [List.length_take, List.length_drop]
        omega
      obtain ⟨ms, hms, hmslen, hmsidx⟩ :
          ∃ ms, (match mt with
                 | MaskType.LowerCase =>
                     (sliceRange seq interval.start interval.end_).map lowercase
                 | MaskType.N =>
                     some (List.replicate (interval.end_ - interval.start) 78)) = some ms ∧
            ms.length = interval.end_ - interval.start ∧
            ∀ k, k < interval.end_ - interval.start →
              ms[k]? = (seq[interval.start + k]?).map (maskByte mt) := by
        cases mt with
        | N =>
            refine ⟨List.replicate (interval.end_ - interval.start) 78, rfl, by simp, ?_⟩
            intro k hk
            rw [List.getElem?_replicate, if_pos hk]
            have hik : interval.start + k < seq.length := by omega
            rw [List.getElem?_eq_getElem hik]
            rfl
        | LowerCase =>
            have hslice : sliceRange seq interval.start interval.end_ =
                some ((seq.drop interval.start).take (interval.end_ - interval.start)) := by
              unfold sliceRange
              rw [if_pos ⟨his, hie⟩]
            refine ⟨lowercase ((seq.drop interval.start).take (interval.end_ - interval.start)),
              ?_, ?_, ?_⟩
            · rw [hslice]
              rfl
            · unfold lowercase
              rw [List.length_map, List.length_take, List.length_drop]
              omega
            · intro k hk
              unfold lowercase
              rw [List.getElem?_map, List.getElem?_take_of_lt hk, List.getElem?_drop]
              have hik : interval.start + k < seq.length := by omega
              rw [List.getElem?_eq_getElem hik]
              rfl
      have hchain2 : List.Chain' (fun a b => a.end_ ≤ b.start) rest := hchain.tail
      have hhead2 : ∀ iv ∈ rest.head?, interval.end_ ≤ iv.start :=
        (List.chain'_cons'.mp hchain).1
      obtain ⟨tail, htail, htaillen, htailidx⟩ := ih interval hchain2 hwfrest hie hhead2
      refine ⟨(seq.drop last.end_).take (interval.start - last.end_) ++ ms ++ tail, ?_, ?_, ?_⟩
      · rw [maskGo_cons, hinter]
        dsimp only
        rw [hms]
        dsimp only
        rw [htail]
      · rw [List.length_append, List.length_append, hinterlen, hmslen, htaillen]
        omega
      · intro i hi1 hi2
        by_cases hzoneA : i < interval.start
        · -- before the interval: verbatim copy
          have hcopy : ((seq.drop last.end_).take (interval.start - last.end_) ++ ms ++
              tail)[i - last.end_]? = seq[i]? := by
            rw [List.append_assoc, List.getElem?_append_left (by rw [hinterlen]; omega)]
            rw [List.getElem?_take_of_lt (by omega), List.getElem?_drop]
            congr 1
            omega
          constructor
          · intro hcov
            exfalso
            rcases covers_cons.mp hcov with h | h
            · obtain ⟨h1, h2⟩ := h
              omega
            · have := covers_tail_lb hchain (fun r hr => (hwfrest r hr).1) h
              omega
          · intro hncov
            exact hcopy
        · by_cases hzoneB : i < interval.end_
          · -- inside the interval: masked
            have hmask : ((seq.drop last.end_).take (interval.start - last.end_) ++ ms ++
                tail)[i - last.end_]? = (seq[i]?).map (maskByte mt) := by
              rw [List.append_assoc,
                List.getElem?_append_right (by rw [hinterlen]; omega),
                List.getElem?_append_left (by rw [hinterlen, hmslen]; omega)]
              rw [hinterlen]
              have hidxeq : i - last.end_ - (interval.start - last.end_) = i - interval.start := by
                omega
              rw [hidxeq]
              have := hmsidx (i - interval.start) (by omega)
              rw [this]
              congr 2
              omega
            constructor
            · intro hcov
              exact hmask
            · intro hncov
              exfalso
              exact hncov (covers_cons.mpr (Or.inl ⟨by omega, by omega⟩))
          · -- beyond the interval: defer to the recursive sweep
            have houtC : ((seq.drop last.end_).take (interval.start - last.end_) ++ ms ++
                tail)[i - last.end_]? = tail[i - interval.end_]? := by
              rw [List.append_assoc,
                List.getElem?_append_right (by rw [hinterlen]; omega),
                List.getElem?_append_right (by rw [hinterlen, hmslen]; omega)]
              congr 1
              rw [hinterlen, hmslen]
              omega
            have hrec := htailidx i (by omega) hi2
            constructor
            · intro hcov
              have hcrest : covers rest i := by
                rcases covers_cons.mp hcov with h | h
                · obtain ⟨h1, h2⟩ := h
                  omega
                · exact h
              rw [houtC]
              exact hrec.1 hcrest
            · intro hncov
              have hncrest : ¬ covers rest i := fun hc => hncov (covers_cons.mpr (Or.inr hc))
              rw [houtC]
              exact hrec.2 hncrest

/-! ### Claims -/

/-- C1: for every sequence, k-mer length `q` with `1 ≤ q ≤ 12`, window size
`W ≥ 1` and threshold `t`: at every window index of the detector's sweep an
interval is emitted iff `distinct_count / window_length < t` (the comparison
being false on a zero-occupancy window, as for the IEEE `NaN`), and the
emitted interval is exactly `[idx, idx + window_length - 1 + q)` in
sequence-byte coordinates: the detector's raw emission list equals the
spec-side emission list `specRawIntervals`. -/
theorem lc2_emission_rule (text : List ℕ) (q W : ℕ) (t : ℚ)
    (_hq : 1 ≤ q ∧ q ≤ 12) (hW : 1 ≤ W) :
    lc2Raw text q t W = some (specRawIntervals (qgramCodes q text) q W t) :=
  lc2Raw_eq_spec text q t W hW

theorem lc2_emission_rule_witness :
    ((1 ≤ 1 ∧ 1 ≤ 12) ∧ 1 ≤ 2) ∧
      lc2Raw [65, 65, 65] 1 (mkRat 1 2) 2 =
        some (specRawIntervals (qgramCodes 1 [65, 65, 65]) 1 2 (mkRat 1 2)) :=
  ⟨⟨⟨by decide, by decide⟩, by decide⟩,
    lc2_emission_rule [65, 65, 65] 1 2 (mkRat 1 2) ⟨by decide, by decide⟩ (by decide)⟩

/-- C2: for every raw interval list as emitted by the detector, the merger's
output satisfies `next.start ≥ current.end` for every consecutive pair, and
the merged intervals cover exactly the byte positions covered by the raw
intervals. -/
theorem lc2_collapse_sound (text : List ℕ) (q W : ℕ) (t : ℚ) (raw : List Interval)
    (hW : 1 ≤ W) (hraw : lc2Raw text q t W = some raw) :
    List.Chain' (fun a b => a.end_ ≤ b.start) (collapse_intervals raw) ∧
    (∀ n, covers (collapse_intervals raw) n ↔ covers raw n) := by
  have heq := lc2Raw_eq_spec text q t W hW
  rw [heq] at hraw
  injection hraw with hraw
  subst hraw
  have hmono : List.Chain' (fun a b => a.start ≤ b.start ∧ a.end_ ≤ b.end_)
      (specRawIntervals (qgramCodes q text) q W t) :=
    ((specRaw_pairwise (qgramCodes q text) q W t).imp
      (fun h => ⟨le_of_lt h.1, h.2⟩)).chain'
  cases hsr : specRawIntervals (qgramCodes q text) q W t with
  | nil =>
      constructor
      · rw [show collapse_intervals [] = [] from rfl]
        exact List.chain'_nil
      · intro n
        rw [show collapse_intervals [] = [] from rfl]
  | cons current rest =>
      rw [hsr] at hmono
      obtain ⟨-, hsep, hcov⟩ := collapseGo_spec rest current hmono
      constructor
      · rw [show collapse_intervals (current :: rest) = collapseGo current rest from rfl]
        exact hsep
      · intro n
        rw [show collapse_intervals (current :: rest) = collapseGo current rest from rfl,
          hcov n, covers_cons]

theorem lc2_collapse_sound_witness :
    (1 ≤ 2 ∧ lc2Raw [65, 65, 65, 65, 65] 1 (mkRat 3 4) 2 =
        some [⟨0, 2⟩, ⟨1, 3⟩, ⟨2, 4⟩, ⟨3, 5⟩]) ∧
    (List.Chain' (fun a b => a.end_ ≤ b.start)
        (collapse_intervals [⟨0, 2⟩, ⟨1, 3⟩, ⟨2, 4⟩, ⟨3, 5⟩]) ∧
      (∀ n, covers (collapse_intervals [⟨0, 2⟩, ⟨1, 3⟩, ⟨2, 4⟩, ⟨3, 5⟩]) n ↔
        covers [⟨0, 2⟩, ⟨1, 3⟩, ⟨2, 4⟩, ⟨3, 5⟩] n)) :=
  ⟨⟨by decide, by decide⟩,
    lc2_collapse_sound [65, 65, 65, 65, 65] 1 2 (mkRat 3 4) _ (by decide) (by decide)⟩

/-- C3: the merger absorbs the next interval exactly when
`next.start < current.end`; at exact abutment (`next.start = current.end`)
the two intervals are kept separate. -/
theorem collapse_merge_policy :
    (∀ (current interval : Interval) (rest : List Interval),
        collapseGo current (interval :: rest) =
          if interval.start < current.end_ then
            collapseGo ⟨current.start, interval.end_⟩ rest
          else current :: collapseGo interval rest) ∧
    (∀ a b : Interval, b.start < a.end_ →
        collapse_intervals [a, b] = [⟨a.start, b.end_⟩]) ∧
    (∀ a b : Interval, b.start = a.end_ → collapse_intervals [a, b] = [a, b]) := by
  refine ⟨fun current interval rest => collapseGo_cons current interval rest, ?_, ?_⟩
  · intro a b h
    show collapseGo a [b] = _
    rw [collapseGo_cons, if_pos h]
    rfl
  · intro a b h
    show collapseGo a [b] = _
    rw [collapseGo_cons, if_neg (by omega)]
    rfl

theorem collapse_merge_policy_witness :
    collapse_intervals [⟨0, 3⟩, ⟨2, 5⟩] = [⟨0, 5⟩] ∧
    collapse_intervals [⟨0, 3⟩, ⟨3, 5⟩] = [⟨0, 3⟩, ⟨3, 5⟩] :=
  ⟨collapse_merge_policy.2.1 ⟨0, 3⟩ ⟨2, 5⟩ (by decide),
    collapse_merge_policy.2.2 ⟨0, 3⟩ ⟨3, 5⟩ (by decide)⟩

/-- C4: for every sequence and every sorted, non-overlapping, in-bounds
interval list, the masker succeeds, its output has exactly the sequence's
length, every byte inside some interval carries the mask policy's byte
(sentinel `N` or the case-folded original), and every byte outside all
intervals is copied unchanged. -/
theorem mask_intervals_spec (seq : List ℕ) (ivs : List Interval) (mt : MaskType)
    (hchain : List.Chain' (fun a b => a.end_ ≤ b.start) ivs)
    (hwf : ∀ iv ∈ ivs, iv.start ≤ iv.end_ ∧ iv.end_ ≤ seq.length) :
    ∃ out, mask_intervals seq ivs mt = some out ∧
      out.length = seq.length ∧
      ∀ i, i < seq.length →
        (covers ivs i → out[i]? = (seq[i]?).map (maskByte mt)) ∧
        (¬ covers ivs i → out[i]? = seq[i]?) := by
  obtain ⟨out, hout, hlen, hidx⟩ :=
    maskGo_spec seq mt ivs ⟨0, 0⟩ hchain hwf (Nat.zero_le _) (fun iv _ => Nat.zero_le _)
  refine ⟨out, hout, by simpa using hlen, ?_⟩
  intro i hi
  have h := hidx i (Nat.zero_le _) hi
  simpa using h

theorem mask_intervals_spec_witness :
    (List.Chain' (fun a b => a.end_ ≤ b.start) [(⟨1, 3⟩ : Interval)] ∧
      (∀ iv ∈ [(⟨1, 3⟩ : Interval)],
        iv.start ≤ iv.end_ ∧ iv.end_ ≤ ([65, 67, 71, 84] : List ℕ).length)) ∧
    ∃ out, mask_intervals [65, 67, 71, 84] [⟨1, 3⟩] MaskType.N = some out ∧
      out.length = ([65, 67, 71, 84] : List ℕ).length ∧
      ∀ i, i < ([65, 67, 71, 84] : List ℕ).length →
        (covers [⟨1, 3⟩] i →
          out[i]? = ((([65, 67, 71, 84] : List ℕ)[i]?).map (maskByte MaskType.N))) ∧
        (¬ covers [⟨1, 3⟩] i → out[i]? = ([65, 67, 71, 84] : List ℕ)[i]?) :=
  ⟨⟨List.chain'_singleton _, by decide⟩,
    mask_intervals_spec [65, 67, 71, 84] [⟨1, 3⟩] MaskType.N (List.chain'_singleton _)
      (by decide)⟩

/-- C5: for every k-mer length `q ≥ 1`, window size and threshold, interval
detection on a sequence shorter than `q` (in particular on an empty
sequence) returns the empty interval list, not an error. -/
theorem lc2_short_sequence_empty (text : List ℕ) (q W : ℕ) (t : ℚ)
    (_hq : 1 ≤ q) (hshort : text.length < q) :
    lc2 text q t W = some [] := by
  have hcodes : qgramCodes q text = [] := by
    unfold qgramCodes
    rw [if_pos hshort]
  show ((lc2Loop q t ((qgramCodes q text).drop W) ((qgramCodes q text).take W)
      (((qgramCodes q text).take W).foldl bump []) 0).map Prod.fst).map collapse_intervals =
    some []
  rw [hcodes]
  simp only [List.drop_nil, List.take_nil, List.foldl_nil]
  rw [lc2Loop_nil]
  simp [ratioLt, collapse_intervals]

theorem lc2_short_sequence_empty_witness :
    (1 ≤ 2 ∧ ([65] : List ℕ).length < 2) ∧ lc2 [65] 2 (mkRat 11 20) 8 = some [] :=
  ⟨⟨by decide, by decide⟩, lc2_short_sequence_empty [65] 2 8 (mkRat 11 20) (by decide) (by decide)⟩

/-- C6: on the 36-byte sequence `"ACGT"` repeated nine times with `q = 4`,
`W = 8`, `t = 0.55 = 11/20`: every one of the 26 windows of 8 consecutive
4-mers has at most 4 distinct codes and is flagged, and the detector followed
by the merger yields exactly the single interval `[0, 36)`. -/
theorem lc2_repeat_acgt_scenario :
    (11 / 20 : ℚ) = mkRat 11 20 ∧
    (∀ idx ∈ List.range 26,
        distinctCount (windowAt (qgramCodes 4 acgt36) 8 idx) ≤ 4 ∧
        ratioLt (distinctCount (windowAt (qgramCodes 4 acgt36) 8 idx))
          (windowAt (qgramCodes 4 acgt36) 8 idx).length (mkRat 11 20) = true) ∧
    lc2 acgt36 4 (mkRat 11 20) 8 = some [⟨0, 36⟩] := by
  refine ⟨by norm_num [Rat.mkRat_eq_div], by decide, by decide⟩

/-- C7: at every recorded step of the detector's sweep (after the initial
fill and after each advance), the frequency table's counts sum to the window
occupancy, a code is a key iff its occurrence count in the window is
positive, no zero-count entry persists, and the key count equals the number
of distinct codes in the window. -/
theorem lc2_table_invariants (text : List ℕ) (q W : ℕ) (t : ℚ) (tr : List SweepStep)
    (hW : 1 ≤ W) (h : lc2Steps text q t W = some tr) :
    ∀ s ∈ tr,
      (s.kmers.map Prod.snd).sum = s.window.length ∧
      (∀ a, (∃ v, (a, v) ∈ s.kmers) ↔ 0 < s.window.count a) ∧
      (∀ a v, (a, v) ∈ s.kmers → 0 < v) ∧
      s.kmers.length = distinctCount s.window := by
  obtain ⟨tr2, heq, hrep⟩ := lc2Steps_rep text q t W hW
  rw [heq] at h
  injection h with h
  subst h
  intro s hs
  have hr := hrep s hs
  refine ⟨tableRep_sum hr, ?_, ?_, tableRep_length hr⟩
  · intro a
    constructor
    · rintro ⟨v, hv⟩
      obtain ⟨h1, h2⟩ := (hr.2 a v).mp hv
      have h2a : s.window.count a = v := h2
      omega
    · intro ha
      exact ⟨s.window.count a, (hr.2 a _).mpr ⟨ha, rfl⟩⟩
  · intro a v hv
    exact ((hr.2 a v).mp hv).1

theorem lc2_table_invariants_witness :
    (1 ≤ 2 ∧ lc2Steps [65, 65, 65] 1 (mkRat 1 2) 2 =
        some [⟨[65, 65], [(65, 2)], 0⟩, ⟨[65, 65], [(65, 2)], 1⟩]) ∧
    ∀ s ∈ [(⟨[65, 65], [(65, 2)], 0⟩ : SweepStep), ⟨[65, 65], [(65, 2)], 1⟩],
      (s.kmers.map Prod.snd).sum = s.window.length ∧
      (∀ a, (∃ v, (a, v) ∈ s.kmers) ↔ 0 < s.window.count a) ∧
      (∀ a v, (a, v) ∈ s.kmers → 0 < v) ∧
      s.kmers.length = distinctCount s.window :=
  ⟨⟨by decide, by decide⟩,
    lc2_table_invariants [65, 65, 65] 1 2 (mkRat 1 2) _ (by decide) (by decide)⟩

/-- C8 counterexample: the configuration validation accepts `k = 0`,
although `0` lies outside the claimed validated range `1 ≤ k ≤ 12`; only the
upper bound is checked (main.rs line 78). -/
theorem kValid_zero_accepted : kValid 0 = true ∧ ¬ (1 ≤ 0) := by decide

/-- C8 (amended): the k-mer length is validated to satisfy `k ≤ 12` only: a
configuration passes the `-k` validation iff `k ≤ 12`; in particular `k > 12`
is a fatal error, while `k = 0` is accepted. -/
theorem kValid_iff_le_twelve : ∀ k : ℕ, kValid k = true ↔ k ≤ 12 := by
  intro k
  by_cases h : k > 12
  · rw [show kValid k = false from by unfold kValid; rw [if_pos h]]
    constructor
    · intro hc
      exact absurd hc (by simp)
    · intro hc
      omega
  · rw [show kValid k = true from by unfold kValid; rw [if_neg h]]
    constructor
    · intro _
      omega
    · intro _
      rfl

theorem kValid_iff_le_twelve_witness : kValid 12 = true ∧ ¬ kValid 13 = true := by
  constructor
  · exact (kValid_iff_le_twelve 12).mpr (by decide)
  · intro hk
    exact absurd ((kValid_iff_le_twelve 13).mp hk) (by decide)

/-- C9 counterexample: on an empty input the detector does evaluate the
complexity ratio once with a zero-length window as divisor (the recorded
sweep trace contains exactly one state, whose window is empty): there is no
special case before the ratio computation of main.rs line 215. -/
theorem lc2_zero_window_ratio_eval :
    lc2Steps [] 4 (mkRat 11 20) 8 = some [⟨[], [], 0⟩] ∧
    ((⟨[], [], 0⟩ : SweepStep).window.length = 0) :=
  ⟨rfl, rfl⟩

/-- C9 (amended): for every input whose k-mer stream is empty, the detector
evaluates the ratio once on the empty window; that comparison (IEEE
`NaN < t`, modelled by `ratioLt` with zero denominator) is false for every
threshold, so no interval is emitted and the detector returns the empty
list without dividing by zero in any observable way. -/
theorem lc2_empty_stream_behavior (text : List ℕ) (q W : ℕ) (t : ℚ)
    (h : qgramCodes q text = []) :
    lc2 text q t W = some [] ∧
    lc2Steps text q t W = some [⟨[], [], 0⟩] ∧
    (∀ num : ℕ, ratioLt num 0 t = false) := by
  refine ⟨?_, ?_, ?_⟩
  · show ((lc2Loop q t ((qgramCodes q text).drop W) ((qgramCodes q text).take W)
        (((qgramCodes q text).take W).foldl bump []) 0).map Prod.fst).map collapse_intervals =
      some []
    rw [h]
    simp only [List.drop_nil, List.take_nil, List.foldl_nil]
    rw [lc2Loop_nil]
    simp [ratioLt, collapse_intervals]
  · show (lc2Loop q t ((qgramCodes q text).drop W) ((qgramCodes q text).take W)
        (((qgramCodes q text).take W).foldl bump []) 0).map Prod.snd = some [⟨[], [], 0⟩]
    rw [h]
    simp only [List.drop_nil, List.take_nil, List.foldl_nil]
    rw [lc2Loop_nil]
    rfl
  · intro num
    unfold ratioLt
    rw [if_pos rfl]

theorem lc2_empty_stream_behavior_witness :
    qgramCodes 4 [] = [] ∧
      (lc2 [] 4 (mkRat 11 20) 8 = some [] ∧
        lc2Steps [] 4 (mkRat 11 20) 8 = some [⟨[], [], 0⟩] ∧
        (∀ num : ℕ, ratioLt num 0 (mkRat 11 20) = false)) :=
  ⟨by decide, lc2_empty_stream_behavior [] 4 8 (mkRat 11 20) (by decide)⟩

/-- C10: with `q ≥ 1` and `W ≥ 1` the sweep never panics (the pop-front and
the table lookup always succeed, so `lc2Raw` returns a value), every emitted
raw interval satisfies `start < end ≤ |text|` with strictly increasing
starts, the merged run succeeds, and every slice taken by the masker is in
bounds for both mask policies; with `W = 0` the same pipeline panics on any
non-empty stream, so the `W ≥ 1` precondition is genuinely required even
though `window_size` is never range-checked in `main`. -/
theorem lc2_mask_pipeline_safe (text : List ℕ) (q W : ℕ) (t : ℚ)
    (hq : 1 ≤ q) (hW : 1 ≤ W) :
    (∃ raw, lc2Raw text q t W = some raw ∧
      List.Chain' (fun a b => a.start < b.start) raw ∧
      (∀ iv ∈ raw, iv.start < iv.end_ ∧ iv.end_ ≤ text.length)) ∧
    (∃ merged, lc2 text q t W = some merged ∧
      ∀ mt, (mask_sequence text q t W mt).isSome = true) ∧
    lc2 [65, 67] 1 t 0 = none := by
  have heq := lc2Raw_eq_spec text q t W hW
  have hqlen : (qgramCodes q text).length =
      if text.length < q then 0 else text.length - q + 1 := by
    unfold qgramCodes
    split
    · rfl
    · rw [List.length_map, List.length_range]
  have hwfraw : ∀ iv ∈ specRawIntervals (qgramCodes q text) q W t,
      iv.start < iv.end_ ∧ iv.end_ ≤ text.length := by
    intro iv hiv
    obtain ⟨idx, hidx, hpos, rfl⟩ := specRaw_mem hiv
    by_cases hc : text.length < q
    · rw [if_pos hc] at hqlen
      constructor
      · show idx < idx + (min W (qgramCodes q text).length - 1 + q)
        omega
      · show idx + (min W (qgramCodes q text).length - 1 + q) ≤ text.length
        omega
    · rw [if_neg hc] at hqlen
      constructor
      · show idx < idx + (min W (qgramCodes q text).length - 1 + q)
        omega
      · show idx + (min W (qgramCodes q text).length - 1 + q) ≤ text.length
        omega
  have hstarts : List.Chain' (fun a b => a.start < b.start)
      (specRawIntervals (qgramCodes q text) q W t) :=
    ((specRaw_pairwise (qgramCodes q text) q W t).imp (fun h => h.1)).chain'
  have hmono : List.Chain' (fun a b => a.start ≤ b.start ∧ a.end_ ≤ b.end_)
      (specRawIntervals (qgramCodes q text) q W t) :=
    ((specRaw_pairwise (qgramCodes q text) q W t).imp
      (fun h => ⟨le_of_lt h.1, h.2⟩)).chain'
  have hlc2 : lc2 text q t W =
      some (collapse_intervals (specRawIntervals (qgramCodes q text) q W t)) := by
    show (lc2Raw text q t W).map collapse_intervals = _
    rw [heq]
    rfl
  have hmask : ∀ mt, (mask_intervals text
      (collapse_intervals (specRawIntervals (qgramCodes q text) q W t)) mt).isSome = true := by
    intro mt
    cases hsr : specRawIntervals (qgramCodes q text) q W t with
    | nil =>
        obtain ⟨out, hout, -, -⟩ := maskGo_spec text mt [] ⟨0, 0⟩ List.chain'_nil
          (by intro iv hiv; simp at hiv) (Nat.zero_le _) (by intro iv hiv; simp at hiv)
        show (maskGo text mt (collapse_intervals []) ⟨0, 0⟩).isSome = true
        rw [show collapse_intervals [] = [] from rfl, hout]
        rfl
    | cons current rest =>
        rw [hsr] at hmono hwfraw
        obtain ⟨-, hsep, -⟩ := collapseGo_spec rest current hmono
        have hwfm : ∀ o ∈ collapseGo current rest,
            o.start ≤ o.end_ ∧ o.end_ ≤ text.length := by
          intro o ho
          obtain ⟨h1, b, hb, hbe⟩ := collapseGo_wf rest current
            (fun iv hiv => le_of_lt (hwfraw iv hiv).1) hmono o ho
          exact ⟨h1, hbe ▸ (hwfraw b hb).2⟩
        obtain ⟨out, hout, -, -⟩ := maskGo_spec text mt (collapseGo current rest) ⟨0, 0⟩
          hsep hwfm (Nat.zero_le _) (fun iv _ => Nat.zero_le _)
        show (maskGo text mt (collapse_intervals (current :: rest)) ⟨0, 0⟩).isSome = true
        rw [show collapse_intervals (current :: rest) = collapseGo current rest from rfl,
          hout]
        rfl
  refine ⟨⟨specRawIntervals (qgramCodes q text) q W t, heq, hstarts, hwfraw⟩,
    ⟨collapse_intervals (specRawIntervals (qgramCodes q text) q W t), hlc2, ?_⟩, ?_⟩
  · intro mt
    have hms : mask_sequence text q t W mt =
        mask_intervals text
          (collapse_intervals (specRawIntervals (qgramCodes q text) q W t)) mt := by
      unfold mask_sequence
      rw [hlc2]
    rw [hms]
    exact hmask mt
  · rfl

theorem lc2_mask_pipeline_safe_witness :
    (1 ≤ 1 ∧ 1 ≤ 2) ∧
    ((∃ raw, lc2Raw acgtUnit 1 (mkRat 1 2) 2 = some raw ∧
        List.Chain' (fun a b => a.start < b.start) raw ∧
        (∀ iv ∈ raw, iv.start < iv.end_ ∧ iv.end_ ≤ acgtUnit.length)) ∧
      (∃ merged, lc2 acgtUnit 1 (mkRat 1 2) 2 = some merged ∧
        ∀ mt, (mask_sequence acgtUnit 1 (mkRat 1 2) 2 mt).isSome = true) ∧
      lc2 [65, 67] 1 (mkRat 1 2) 0 = none) :=
  ⟨⟨by decide, by decide⟩,
    lc2_mask_pipeline_safe acgtUnit 1 2 (mkRat 1 2) (by decide) (by decide)⟩

end Komplexity
